import Mathlib

/-!
Verification development for the spider crawling engine core.

The definitions below are a shallow embedding of the Rust sources:

* `src/spider/src/utils/interner.rs` — the interned visited store (`ListBucket`).
* `src/spider/src/features/chrome.rs` — browser session acquisition and
  per-page configuration (`launch_browser`, `configure_browser` and the
  event-poll loop).
* `src/spider/src/features/chrome_common.rs` — screenshot parameter
  conversion and the web-automation step interpreter
  (`WebAutomation::run`, `eval_automation_scripts`).

Machine integers that never overflow in the modelled paths are embedded as
`Nat`/`Int`; external I/O (the Chrome DevTools protocol, the process
environment) is embedded as explicit oracle records threaded through the
functions, following the spec's own design note that ambient lookups are
to be replaced by explicit configuration values.
-/

set_option autoImplicit false

/-- Modelled from the spec: the type `crate::CaseInsensitiveString` used as
the `ListBucket` key is not part of the provided sources. The spec states a
Url is "a string identity compared case-insensitively; canonical form is
the lower-cased representation used for identity, but original casing may
be preserved for display". Accordingly the key text handed to the interner
(`link.as_ref()` in the Rust code) is modelled as the lower-cased
canonical form of the stored string (each character lower-cased). -/
def canonicalKey (s : String) : String :=
  String.mk (s.data.map Char.toLower)

/-- Membership in a hash set keyed by case-insensitive string equality
(`hashbrown::HashSet<CaseInsensitiveString>` in the source). -/
def ciMem (x : String) (xs : List String) : Bool :=
  xs.any (fun y => canonicalKey y == canonicalKey x)

/-- Insertion into a hash set keyed by case-insensitive string equality;
like `HashSet::insert` it keeps the existing element when one equal to `x`
is already present. -/
def ciInsert (x : String) (xs : List String) : List String :=
  if ciMem x xs then xs else x :: xs

/-- Collect a list of strings into a case-insensitive hash set
(`collect::<HashSet<K>>()` in the source). -/
def ciOfList (l : List String) : List String :=
  l.foldl (fun acc x => ciInsert x acc) []

/-- Lookup of a string inside the interner's backing store, returning its
symbol (`StringInterner::get`). The `string_interner` backend resolves a
string to the index at which it was first interned; the store is modelled
as the list of interned strings in interning order. -/
def internerGet (I : List String) (s : String) : Option Nat :=
  match I with
  | [] => none
  | t :: rest => if t = s then some 0 else (internerGet rest s).map (· + 1)

/-- `StringInterner::get_or_intern`: return the existing symbol of `s`, or
append `s` to the store and return the freshly assigned symbol together
with the updated store. -/
def getOrIntern (I : List String) (s : String) : Nat × List String :=
  match internerGet I s with
  | some i => (i, I)
  | none => (I.length, I ++ [s])

/-- `StringInterner::resolve`: the text interned under a symbol, when the
symbol is valid for this store. -/
def resolveSymbol (I : List String) (i : Nat) : Option String :=
  I.get? i

/-- The links visited bucket store (`ListBucket` in
`src/spider/src/utils/interner.rs`): the set of visited symbols
(`links_visited : HashSet<DefaultSymbol>`, modelled as a duplicate-free
list of symbols) plus the string interner. -/
structure ListBucket where
  links_visited : List Nat
  interner : List String
  deriving Repr, DecidableEq

/-- Insertion into the visited symbol hash set; a no-op when the symbol is
already present. -/
def natSetInsert (i : Nat) (l : List Nat) : List Nat :=
  if i ∈ l then l else i :: l

/-- `ListBucket::new` / `Default::default()`: empty visited set, empty
interner. -/
def ListBucket.new : ListBucket :=
  { links_visited := [], interner := [] }

/-- `ListBucket::insert`: intern the link's key text and add the resulting
symbol to `links_visited`. -/
def ListBucket.insert (b : ListBucket) (link : String) : ListBucket :=
  let r := getOrIntern b.interner (canonicalKey link)
  { links_visited := natSetInsert r.1 b.links_visited, interner := r.2 }

/-- `ListBucket::contains`: true when the key text is interned and its
symbol is in `links_visited`. -/
def ListBucket.contains (b : ListBucket) (link : String) : Bool :=
  match internerGet b.interner (canonicalKey link) with
  | some symbol => symbol ∈ b.links_visited
  | none => false

/-- `ListBucket::len`: the number of visited symbols. -/
def ListBucket.len (b : ListBucket) : Nat :=
  b.links_visited.length

/-- `ListBucket::clear`: clear the visited set (the interner is kept). -/
def ListBucket.clear (b : ListBucket) : ListBucket :=
  { b with links_visited := [] }

/-- `ListBucket::get_links`: resolve every visited symbol and collect the
texts into a set of keys (`filter_map(resolve)` then
`collect::<HashSet<K>>`). -/
def ListBucket.get_links (b : ListBucket) : List String :=
  ciOfList (b.links_visited.filterMap (resolveSymbol b.interner))

/-- `ListBucket::extend_links`: for each candidate link in `msg`, intern
its key text and, when the symbol is not already visited, insert the link
into the output set `links`. Mirrors the `for link in msg` loop; the
bucket is returned because `get_or_intern` may grow the interner. -/
def ListBucket.extend_links (b : ListBucket) (links : List String) :
    List String → ListBucket × List String
  | [] => (b, links)
  | link :: rest =>
      let r := getOrIntern b.interner (canonicalKey link)
      let b' : ListBucket := { links_visited := b.links_visited, interner := r.2 }
      let links' := if r.1 ∈ b.links_visited then links else ciInsert link links
      ListBucket.extend_links b' links' rest

/-- `ListBucket::extend_with_new_links`: look the single candidate up
without interning; insert it into `links` unless its symbol exists and is
already visited. The receiver is only read, never written, so it is
returned unchanged on both paths. -/
def ListBucket.extend_with_new_links (b : ListBucket) (links : List String)
    (s : String) : ListBucket × List String :=
  match internerGet b.interner (canonicalKey s) with
  | some symbol =>
      if symbol ∈ b.links_visited then (b, links) else (b, ciInsert s links)
  | none => (b, ciInsert s links)

/-- Well-formedness of a bucket: every visited symbol is a valid index of
the interner's store. Every bucket reachable through the `ListBucket` API
satisfies this (symbols enter `links_visited` only from `get_or_intern`). -/
def ListBucket.WF (b : ListBucket) : Prop :=
  ∀ s ∈ b.links_visited, s < b.interner.length

/- ### Interner lemmas -/

theorem internerGet_lt_length {I : List String} {s : String} {i : Nat}
    (h : internerGet I s = some i) : i < I.length := by
  induction I generalizing i with
  | nil => simp [internerGet] at h
  | cons t rest ih =>
      by_cases ht : t = s
      · simp [internerGet, ht] at h ⊢
        omega
      · simp [internerGet, ht] at h ⊢
        obtain ⟨j, hj, rfl⟩ := h
        have := ih hj
        omega

theorem internerGet_get {I : List String} {s : String} {i : Nat}
    (h : internerGet I s = some i) : I.get? i = some s := by
  induction I generalizing i with
  | nil => simp [internerGet] at h
  | cons t rest ih =>
      by_cases ht : t = s
      · simp [internerGet, ht] at h
        subst h
        simp [ht]
      · simp [internerGet, ht] at h
        obtain ⟨j, hj, rfl⟩ := h
        simpa using ih hj

theorem internerGet_append_left {I : List String} (J : List String)
    {s : String} {i : Nat} (h : internerGet I s = some i) :
    internerGet (I ++ J) s = some i := by
  induction I generalizing i with
  | nil => simp [internerGet] at h
  | cons t rest ih =>
      by_cases ht : t = s
      · simp [internerGet, ht] at h ⊢
        omega
      · simp [internerGet, ht] at h ⊢
        obtain ⟨j, hj, rfl⟩ := h
        exact ⟨j, ih hj, rfl⟩

theorem internerGet_append_self {I : List String} {s : String}
    (h : internerGet I s = none) :
    internerGet (I ++ [s]) s = some I.length := by
  induction I with
  | nil => simp [internerGet]
  | cons t rest ih =>
      by_cases ht : t = s
      · simp [internerGet, ht] at h
      · rw [List.cons_append]
        rw [show internerGet (t :: (rest ++ [s])) s
              = (internerGet (rest ++ [s]) s).map (· + 1) by simp [internerGet, ht]]
        simp [internerGet, ht] at h
        rw [ih h]
        simp

theorem internerGet_append_other {I : List String} {s t : String}
    (h : internerGet I s = none) (hne : t ≠ s) :
    internerGet (I ++ [t]) s = none := by
  induction I with
  | nil => simp [internerGet, hne]
  | cons u rest ih =>
      by_cases hu : u = s
      · simp [internerGet, hu] at h
      · simp [internerGet, hu] at h ⊢
        exact ih h

/-- After `get_or_intern I s`, looking `s` up in the updated store yields
exactly the symbol that `get_or_intern` returned. -/
theorem internerGet_getOrIntern (I : List String) (s : String) :
    internerGet (getOrIntern I s).2 s = some (getOrIntern I s).1 := by
  unfold getOrIntern
  cases h : internerGet I s with
  | some i => simpa using h
  | none => simpa using internerGet_append_self h

theorem getOrIntern_fst_lt (I : List String) (s : String) :
    (getOrIntern I s).1 < (getOrIntern I s).2.length := by
  unfold getOrIntern
  cases h : internerGet I s with
  | some i => simpa using internerGet_lt_length h
  | none => simp

theorem getOrIntern_length_le (I : List String) (s : String) :
    I.length ≤ (getOrIntern I s).2.length := by
  unfold getOrIntern
  cases h : internerGet I s with
  | some i => simp
  | none => simp

/- ### Visited-set lemmas -/

theorem mem_natSetInsert_self (i : Nat) (l : List Nat) : i ∈ natSetInsert i l := by
  unfold natSetInsert
  split
  · assumption
  · exact List.mem_cons_self i l

theorem natSetInsert_of_mem {i : Nat} {l : List Nat} (h : i ∈ l) :
    natSetInsert i l = l := by
  simp [natSetInsert, h]

theorem length_natSetInsert_of_not_mem {i : Nat} {l : List Nat} (h : i ∉ l) :
    (natSetInsert i l).length = l.length + 1 := by
  simp [natSetInsert, h]

theorem mem_natSetInsert {i j : Nat} {l : List Nat} :
    j ∈ natSetInsert i l ↔ j = i ∨ j ∈ l := by
  unfold natSetInsert
  split
  · rename_i hmem
    constructor
    · exact fun h => Or.inr h
    · rintro (rfl | h)
      · exact hmem
      · exact h
  · simp [List.mem_cons]

/-- When the key is already interned, `get_or_intern` leaves the store
untouched and returns the existing symbol. -/
theorem getOrIntern_of_get_some {I : List String} {s : String} {i : Nat}
    (h : internerGet I s = some i) : getOrIntern I s = (i, I) := by
  simp [getOrIntern, h]

/-- C1 (Case-insensitive identity). Strings equal case-insensitively intern
to the same `Symbol` in one store: interning the second immediately after
the first returns the very symbol assigned to the first, and after
`ListBucket::insert` of one string, `ListBucket::contains` of the other
returns `true`. -/
theorem interner_case_insensitive_identity (b : ListBucket) (I : List String)
    (u v : String) (h : canonicalKey u = canonicalKey v) :
    (getOrIntern (getOrIntern I (canonicalKey u)).2 (canonicalKey v)).1
        = (getOrIntern I (canonicalKey u)).1
    ∧ (b.insert u).contains v = true := by
  have hk : canonicalKey v = canonicalKey u := h.symm
  constructor
  · rw [hk, getOrIntern_of_get_some (internerGet_getOrIntern I (canonicalKey u))]
  · unfold ListBucket.insert ListBucket.contains
    simp only [hk]
    rw [internerGet_getOrIntern b.interner (canonicalKey u)]
    simp [mem_natSetInsert_self]

/-- Witness for C1 at the spec's concrete pair of Urls. -/
theorem interner_case_insensitive_identity_witness :
    canonicalKey "HTTP://Example.com/A" = canonicalKey "http://example.com/a"
    ∧ (ListBucket.new.insert "HTTP://Example.com/A").contains
        "http://example.com/a" = true :=
  ⟨by decide,
   (interner_case_insensitive_identity ListBucket.new []
      "HTTP://Example.com/A" "http://example.com/a" (by decide)).2⟩

/- ### Insert idempotence (C2) -/

/-- Repeated `ListBucket::insert` of one Url, `N` applications in a row. -/
def ListBucket.insertTimes (b : ListBucket) (u : String) : Nat → ListBucket
  | 0 => b
  | n + 1 => (b.insertTimes u n).insert u

theorem insert_insert_eq (b : ListBucket) (u : String) :
    (b.insert u).insert u = b.insert u := by
  unfold ListBucket.insert
  simp only
  rw [getOrIntern_of_get_some (internerGet_getOrIntern b.interner (canonicalKey u))]
  simp [natSetInsert_of_mem (mem_natSetInsert_self _ _)]

/-- A not-yet-visited Url's insertion grows `len` by exactly one (the fresh
symbol cannot already be in the visited set thanks to well-formedness). -/
theorem len_insert_of_not_contains {b : ListBucket} {u : String}
    (hwf : b.WF) (h : b.contains u = false) :
    (b.insert u).len = b.len + 1 := by
  unfold ListBucket.insert ListBucket.len
  unfold ListBucket.contains at h
  cases hg : internerGet b.interner (canonicalKey u) with
  | some i =>
      rw [hg] at h
      simp only [decide_eq_false_iff_not] at h
      simp [getOrIntern_of_get_some hg, length_natSetInsert_of_not_mem h]
  | none =>
      have hfresh : b.interner.length ∉ b.links_visited := by
        intro hmem
        exact absurd (hwf _ hmem) (by omega)
      simp [getOrIntern, hg, length_natSetInsert_of_not_mem hfresh]

/-- C2 (amended: the length proviso). In all cases repeating the insert
leaves the visited set unchanged — `N ≥ 1` inserts of one Url leave the
store in exactly the state of a single insert, whether or not the Url was
already visited; and when the Url is not already visited (on a reachable,
well-formed store), `len` grows by exactly one over its value before the
first insert. -/
theorem insert_idempotent_len (b : ListBucket) (u : String) (N : Nat)
    (hN : 1 ≤ N) :
    b.insertTimes u N = b.insert u
    ∧ (b.WF → b.contains u = false →
        (b.insertTimes u N).len = b.len + 1) := by
  have hrep : b.insertTimes u N = b.insert u := by
    induction N with
    | zero => omega
    | succ n ih =>
        cases Nat.eq_or_lt_of_le hN with
        | inl h1 =>
            have : n = 0 := by omega
            subst this
            rfl
        | inr h1 =>
            have hn : 1 ≤ n := by omega
            rw [ListBucket.insertTimes, ih hn, insert_insert_eq]
  refine ⟨hrep, fun hwf hnc => ?_⟩
  rw [hrep]
  exact len_insert_of_not_contains hwf hnc

/-- Witness for C2's amended statement: a fresh store exercises the
length conjunct, a store already holding the Url exercises the
unconditional repeat-is-one-insert conjunct. -/
theorem insert_idempotent_len_witness :
    (ListBucket.new.insertTimes "https://example.com/" 3
        = ListBucket.new.insert "https://example.com/"
      ∧ (ListBucket.new.insertTimes "https://example.com/" 3).len
          = ListBucket.new.len + 1)
    ∧ (ListBucket.new.insert "a").insertTimes "a" 2
        = (ListBucket.new.insert "a").insert "a" :=
  ⟨⟨(insert_idempotent_len ListBucket.new "https://example.com/" 3 (by decide)).1,
    (insert_idempotent_len ListBucket.new "https://example.com/" 3 (by decide)).2
      (by intro s hs; simp [ListBucket.new] at hs) (by decide)⟩,
   (insert_idempotent_len (ListBucket.new.insert "a") "a" 2 (by decide)).1⟩

/-- Counterexample to C2 as frozen: when the Url is already visited, a
further insert leaves `len` unchanged, so the length does not increase by
one relative to its value before that insert. -/
theorem insert_len_increment_counterexample :
    ¬ (((ListBucket.new.insert "a").insertTimes "a" 1).len
        = (ListBucket.new.insert "a").len + 1) := by
  decide

/- ### Case-insensitive set lemmas -/

theorem ciMem_congr {x y : String} (l : List String)
    (h : canonicalKey x = canonicalKey y) : ciMem x l = ciMem y l := by
  simp [ciMem, h]

theorem ciMem_ciInsert (x y : String) (l : List String) :
    ciMem x (ciInsert y l) = ((canonicalKey y == canonicalKey x) || ciMem x l) := by
  unfold ciInsert
  by_cases hy : ciMem y l = true
  · rw [if_pos hy]
    by_cases he : canonicalKey y = canonicalKey x
    · rw [ciMem_congr l he.symm, hy]
      simp [he]
    · simp [he]
  · rw [if_neg hy]
    simp [ciMem, List.any_cons]

/- ### Contains is stable while the interner grows (C3 support) -/

/-- Interning any string never changes the answer of `contains` on a
well-formed bucket: a fresh symbol cannot be in the visited set. -/
theorem contains_getOrIntern {b : ListBucket} (hwf : b.WF) (s x : String) :
    (ListBucket.mk b.links_visited (getOrIntern b.interner s).2).contains x
      = b.contains x := by
  unfold getOrIntern
  cases hg : internerGet b.interner s with
  | some i => rfl
  | none =>
      show (ListBucket.mk b.links_visited (b.interner ++ [s])).contains x = _
      unfold ListBucket.contains
      cases hx : internerGet b.interner (canonicalKey x) with
      | some j =>
          rw [internerGet_append_left [s] hx]
      | none =>
          by_cases hxs : canonicalKey x = s
          · subst hxs
            rw [internerGet_append_self hx]
            have hfresh : b.interner.length ∉ b.links_visited := by
              intro hmem
              exact absurd (hwf _ hmem) (by omega)
            simp [hfresh]
          · rw [internerGet_append_other hx (by intro hc; exact hxs hc.symm)]

theorem WF_getOrIntern {b : ListBucket} (hwf : b.WF) (s : String) :
    (ListBucket.mk b.links_visited (getOrIntern b.interner s).2).WF := by
  intro t ht
  have := hwf t ht
  have hle := getOrIntern_length_le b.interner s
  simp only [ListBucket.WF] at *
  omega

/-- The interned symbol of `l` is visited exactly when `contains l` holds
(on a well-formed bucket: a freshly assigned symbol is never visited). -/
theorem getOrIntern_fst_mem_iff {b : ListBucket} (hwf : b.WF) (l : String) :
    ((getOrIntern b.interner (canonicalKey l)).1 ∈ b.links_visited)
      ↔ b.contains l = true := by
  unfold getOrIntern ListBucket.contains
  cases hg : internerGet b.interner (canonicalKey l) with
  | some i => simp
  | none =>
      have hfresh : b.interner.length ∉ b.links_visited := by
        intro hmem
        exact absurd (hwf _ hmem) (by omega)
      simp [hfresh]

/-- `contains` looks only at the canonical key. -/
theorem contains_congr (b : ListBucket) {x y : String}
    (h : canonicalKey x = canonicalKey y) : b.contains x = b.contains y := by
  unfold ListBucket.contains
  rw [h]

theorem extend_links_visited_eq (msg : List String) :
    ∀ (b : ListBucket) (links : List String),
      (b.extend_links links msg).1.links_visited = b.links_visited := by
  induction msg with
  | nil => intro b links; rfl
  | cons l rest ih =>
      intro b links
      rw [ListBucket.extend_links]
      exact ih _ _

theorem extend_links_mem (msg : List String) :
    ∀ (b : ListBucket) (links : List String), b.WF →
      ∀ x, ciMem x (b.extend_links links msg).2
        = (ciMem x links || (ciMem x msg && !(b.contains x))) := by
  induction msg with
  | nil =>
      intro b links _ x
      simp [ListBucket.extend_links, ciMem]
  | cons l rest ih =>
      intro b links hwf x
      rw [ListBucket.extend_links]
      have hwf' := WF_getOrIntern hwf (canonicalKey l)
      rw [ih _ _ hwf' x]
      rw [contains_getOrIntern hwf (canonicalKey l) x]
      have hmem := getOrIntern_fst_mem_iff hwf l
      have hcx : ciMem x (l :: rest)
          = ((canonicalKey l == canonicalKey x) || ciMem x rest) := by
        simp [ciMem, List.any_cons]
      rw [hcx]
      by_cases hin : (getOrIntern b.interner (canonicalKey l)).1 ∈ b.links_visited
      · have hD : b.contains l = true := hmem.mp hin
        rw [if_pos hin]
        by_cases he : canonicalKey l = canonicalKey x
        · have hCx : b.contains x = true := by
            rw [contains_congr b he.symm]
            exact hD
          have he' : (canonicalKey l == canonicalKey x) = true := by
            simp [he]
          rw [hCx, he']
          simp
        · have he' : (canonicalKey l == canonicalKey x) = false := by
            simp [he]
          rw [he']
          simp
      · have hD : b.contains l = false := by
          cases hc : b.contains l with
          | false => rfl
          | true => exact absurd (hmem.mpr hc) hin
        rw [if_neg hin, ciMem_ciInsert]
        by_cases he : canonicalKey l = canonicalKey x
        · have hCx : b.contains x = false := by
            rw [contains_congr b he.symm]
            exact hD
          have he' : (canonicalKey l == canonicalKey x) = true := by
            simp [he]
          rw [hCx, he']
          simp
        · have he' : (canonicalKey l == canonicalKey x) = false := by
            simp [he]
          rw [he']
          simp

/-- C3 (frame/effect of the intern-and-check operations). Neither
`extend_links` nor `extend_with_new_links` marks anything visited:
`links_visited` is unchanged (for `extend_with_new_links` the whole bucket
is unchanged), and the output set holds exactly the input links plus those
candidates whose interned symbol is not already visited. -/
theorem extend_links_frame_and_filter (b : ListBucket)
    (links msg : List String) (s x : String) (hwf : b.WF) :
    (b.extend_links links msg).1.links_visited = b.links_visited
    ∧ ciMem x (b.extend_links links msg).2
        = (ciMem x links || (ciMem x msg && !(b.contains x)))
    ∧ (b.extend_with_new_links links s).1 = b
    ∧ ciMem x (b.extend_with_new_links links s).2
        = (ciMem x links
            || ((canonicalKey s == canonicalKey x) && !(b.contains s))) := by
  refine ⟨extend_links_visited_eq msg b links, extend_links_mem msg b links hwf x,
    ?_, ?_⟩
  · unfold ListBucket.extend_with_new_links
    cases internerGet b.interner (canonicalKey s) with
    | some symbol =>
        by_cases hv : symbol ∈ b.links_visited
        · simp [hv]
        · simp [hv]
    | none => rfl
  · unfold ListBucket.extend_with_new_links
    cases hg : internerGet b.interner (canonicalKey s) with
    | some symbol =>
        have hcs : b.contains s = decide (symbol ∈ b.links_visited) := by
          unfold ListBucket.contains
          rw [hg]
        by_cases hv : symbol ∈ b.links_visited
        · simp [hv, hcs]
        · simp [hv, hcs, ciMem_ciInsert, Bool.or_comm]
    | none =>
        have hcs : b.contains s = false := by
          unfold ListBucket.contains
          rw [hg]
        simp [hcs, ciMem_ciInsert, Bool.or_comm]

/-- Witness for C3 at a concrete store containing "a", with candidates
{"a", "b"} and single candidate "c". -/
theorem extend_links_frame_and_filter_witness :
    (ListBucket.new.insert "a").WF
    ∧ (((ListBucket.new.insert "a").extend_links [] ["a", "b"]).1.links_visited
          = (ListBucket.new.insert "a").links_visited
        ∧ ciMem "b" ((ListBucket.new.insert "a").extend_links [] ["a", "b"]).2
            = (ciMem "b" []
                || (ciMem "b" ["a", "b"]
                    && !((ListBucket.new.insert "a").contains "b")))
        ∧ ((ListBucket.new.insert "a").extend_with_new_links [] "c").1
            = ListBucket.new.insert "a"
        ∧ ciMem "b" ((ListBucket.new.insert "a").extend_with_new_links [] "c").2
            = (ciMem "b" []
                || ((canonicalKey "c" == canonicalKey "b")
                    && !((ListBucket.new.insert "a").contains "c")))) :=
  ⟨by unfold ListBucket.WF; decide,
   extend_links_frame_and_filter (ListBucket.new.insert "a") [] ["a", "b"] "c" "b"
     (by unfold ListBucket.WF; decide)⟩

/- ### Materializing the visited set (C9) -/

theorem ciMem_foldl_ciInsert (l : List String) :
    ∀ (acc : List String) (x : String),
      ciMem x (l.foldl (fun a y => ciInsert y a) acc)
        = (ciMem x acc || l.any (fun t => canonicalKey t == canonicalKey x)) := by
  induction l with
  | nil => intro acc x; simp
  | cons y l ih =>
      intro acc x
      rw [List.foldl_cons, ih (ciInsert y acc) x, ciMem_ciInsert]
      simp [List.any_cons, Bool.or_assoc, Bool.or_comm, Bool.or_left_comm]

theorem ciMem_ciOfList (l : List String) (x : String) :
    ciMem x (ciOfList l) = l.any (fun t => canonicalKey t == canonicalKey x) := by
  unfold ciOfList
  rw [ciMem_foldl_ciInsert]
  simp [ciMem]

/-- C9 (`get_links` materializes exactly the visited set). On a
well-formed store every visited symbol resolves, and the collected output
set holds precisely the resolved texts of the visited symbols: membership
in `get_links` is equivalent to being (case-insensitively) the text
interned under some visited symbol. -/
theorem get_links_exact (b : ListBucket) (hwf : b.WF) :
    (∀ s ∈ b.links_visited, ∃ t, resolveSymbol b.interner s = some t)
    ∧ (∀ x, ciMem x b.get_links = true
        ↔ ∃ s ∈ b.links_visited, ∃ t, resolveSymbol b.interner s = some t
            ∧ canonicalKey t = canonicalKey x) := by
  constructor
  · intro s hs
    have hlt := hwf s hs
    exact ⟨b.interner.get ⟨s, hlt⟩, by simp [resolveSymbol, List.get?_eq_get hlt]⟩
  · intro x
    unfold ListBucket.get_links
    rw [ciMem_ciOfList, List.any_eq_true]
    constructor
    · rintro ⟨t, ht, he⟩
      rw [List.mem_filterMap] at ht
      obtain ⟨s, hs, hres⟩ := ht
      exact ⟨s, hs, t, hres, by simpa using he⟩
    · rintro ⟨s, hs, t, hres, he⟩
      exact ⟨t, List.mem_filterMap.mpr ⟨s, hs, hres⟩, by simpa using he⟩

/-- Witness for C9 at a concrete two-element store. -/
theorem get_links_exact_witness :
    ((ListBucket.new.insert "A").insert "b").WF
    ∧ ((∀ s ∈ ((ListBucket.new.insert "A").insert "b").links_visited,
          ∃ t, resolveSymbol ((ListBucket.new.insert "A").insert "b").interner s
              = some t)
        ∧ (∀ x, ciMem x ((ListBucket.new.insert "A").insert "b").get_links = true
            ↔ ∃ s ∈ ((ListBucket.new.insert "A").insert "b").links_visited,
                ∃ t, resolveSymbol ((ListBucket.new.insert "A").insert "b").interner s
                    = some t
                  ∧ canonicalKey t = canonicalKey x)) :=
  ⟨by unfold ListBucket.WF; decide,
   get_links_exact ((ListBucket.new.insert "A").insert "b")
     (by unfold ListBucket.WF; decide)⟩

/- ### Web automation (`src/spider/src/features/chrome_common.rs`) -/

/-- Nanoseconds of `Duration::from_millis`. -/
def durationFromMillis (ms : Nat) : Nat :=
  ms * 1000000

/-- Nanoseconds of `Duration::from_secs`. -/
def durationFromSecs (s : Nat) : Nat :=
  s * 1000000000

/-- The `WebAutomation` action variants of `chrome_common.rs`. `u64`/`u32`
payloads are embedded as `Nat`, `i32` as `Int`. -/
inductive WebAutomation where
  | Evaluate (js : String)
  | Click (selector : String)
  | Wait (ms : Nat)
  | WaitForNavigation
  | WaitFor (selector : String)
  | WaitForAndClick (selector : String)
  | ScrollX (px : Int)
  | ScrollY (px : Int)
  | Fill (selector : String) (value : String)
  | InfiniteScroll (timeout : Nat)
  | Screenshot (full_page : Bool) (omit_background : Bool) (output : String)
  deriving Repr, DecidableEq

/-- Observable protocol effects of one automation step on a page. The
`evaluatedDynamicScroll` effect stands for evaluating the script built by
`set_dynamic_scroll`, recorded by its clamped timeout
(`timeout.min(60000)` in the source). -/
inductive Effect where
  | evaluated (js : String)
  | clicked (selector : String)
  | slept (nanos : Nat)
  | waitedForSelector (selector : String)
  | waitedForNavigation
  | scrolledX (px : Int)
  | scrolledY (px : Int)
  | typed (selector : String) (value : String)
  | evaluatedDynamicScroll (timeoutMillis : Nat)
  | screenshotted (full_page : Bool) (omit_background : Bool) (output : String)
  deriving Repr, DecidableEq

/-- The abstract browser page a step runs against: which selectors
`find_element` finds, whether an element click call returns `Ok`, and how
long each step's future takes to complete (in nanoseconds), used by the
60-second `tokio::time::timeout` wrapper. -/
structure PageEnv where
  selectors : List String
  clickOk : Bool
  stepDuration : WebAutomation → Nat

/-- `WebAutomation::run`: the per-variant interpreter. Every fallible
protocol call has its result discarded (`let _ = ...` / `match ... Ok =>
..., _ => ()`), so a missing selector or failed call produces no effect
instead of an error. -/
def WebAutomation.run (page : PageEnv) : WebAutomation → List Effect
  | .Evaluate js => [.evaluated js]
  | .Click selector =>
      if selector ∈ page.selectors then [.clicked selector] else []
  | .Wait ms => [.slept (min (durationFromMillis ms) (durationFromSecs 60))]
  | .WaitFor selector => [.waitedForSelector selector]
  | .WaitForNavigation => [.waitedForNavigation]
  | .WaitForAndClick selector =>
      .waitedForSelector selector ::
        (if selector ∈ page.selectors then [.clicked selector] else [])
  | .ScrollX px => [.scrolledX px]
  | .ScrollY px => [.scrolledY px]
  | .Fill selector value =>
      if selector ∈ page.selectors then
        (if page.clickOk then [.clicked selector, .typed selector value]
         else [.clicked selector])
      else []
  | .InfiniteScroll timeout => [.evaluatedDynamicScroll (min timeout 60000)]
  | .Screenshot full_page omit_background output =>
      [.screenshotted full_page omit_background output]

/-- Outcome of wrapping one step in `tokio::time::timeout(60s, ...)`. -/
inductive StepResult where
  | completed (effects : List Effect)
  | timedOut
  deriving Repr, DecidableEq

/-- One loop iteration body of `eval_automation_scripts`: the step bounded
by the fixed 60-second ceiling. -/
def runWithTimeout (page : PageEnv) (script : WebAutomation) : StepResult :=
  if page.stepDuration script ≤ durationFromSecs 60 then
    StepResult.completed (script.run page)
  else
    StepResult.timedOut

/-- The `for script in scripts` loop of `eval_automation_scripts`: on
`Ok` the loop simply continues; on `Err` (timeout) it logs and continues.
Neither arm breaks out of the loop. -/
def runScriptSteps (page : PageEnv) : List WebAutomation → List StepResult
  | [] => []
  | script :: rest =>
      let result := runWithTimeout page script
      match result with
      | StepResult.completed _ => result :: runScriptSteps page rest
      | StepResult.timedOut => result :: runScriptSteps page rest

/-- `eval_automation_scripts`: look the target Url up in the registered
script map and run the whole sequence. -/
def eval_automation_scripts (page : PageEnv) (target_url : String)
    (automation_scripts : Option (List (String × List WebAutomation))) :
    List StepResult :=
  match automation_scripts with
  | some script_map =>
      match List.lookup target_url script_map with
      | some scripts => runScriptSteps page scripts
      | none => []
  | none => []

theorem runScriptSteps_eq_map (page : PageEnv) (scripts : List WebAutomation) :
    runScriptSteps page scripts = scripts.map (runWithTimeout page) := by
  induction scripts with
  | nil => rfl
  | cons s rest ih =>
      rw [runScriptSteps, List.map_cons]
      cases hr : runWithTimeout page s with
      | completed effects => rw [ih]
      | timedOut => rw [ih]

/-- C4 (automation resilience). For the script registered for the target
Url, `eval_automation_scripts` runs every step in sequence order: the
result list pairs up index-by-index with the script, so a step that fails
(a `Click` on a missing selector is a no-op) or exceeds the 60-second
ceiling (abandoned as `timedOut`) never prevents the remaining steps from
running; and on a page lacking `"#missing"` the script
`[Click "#missing", Wait 100, Evaluate "return 1"]` completes all three
steps. -/
theorem eval_automation_scripts_resilient (page : PageEnv)
    (script_map : List (String × List WebAutomation)) (target_url : String)
    (scripts : List WebAutomation)
    (hfound : List.lookup target_url script_map = some scripts) :
    eval_automation_scripts page target_url (some script_map)
        = scripts.map (runWithTimeout page)
    ∧ (eval_automation_scripts page target_url (some script_map)).length
        = scripts.length
    ∧ (∀ i (h : i < scripts.length),
        (eval_automation_scripts page target_url (some script_map)).get? i
          = some (runWithTimeout page (scripts.get ⟨i, h⟩)))
    ∧ (∀ script, durationFromSecs 60 < page.stepDuration script →
        runWithTimeout page script = StepResult.timedOut)
    ∧ (∀ p : PageEnv, "#missing" ∉ p.selectors →
        (∀ s, p.stepDuration s ≤ durationFromSecs 60) →
        runScriptSteps p
            [WebAutomation.Click "#missing", WebAutomation.Wait 100,
              WebAutomation.Evaluate "return 1"]
          = [StepResult.completed [],
              StepResult.completed [Effect.slept (durationFromMillis 100)],
              StepResult.completed [Effect.evaluated "return 1"]]) := by
  have heval : eval_automation_scripts page target_url (some script_map)
      = scripts.map (runWithTimeout page) := by
    simp only [eval_automation_scripts]
    rw [hfound]
    exact runScriptSteps_eq_map page scripts
  refine ⟨heval, by rw [heval]; simp, ?_, ?_, ?_⟩
  · intro i h
    rw [heval, List.get?_map, List.get?_eq_get h]
    rfl
  · intro script hdur
    unfold runWithTimeout
    rw [if_neg (by omega)]
  · intro p hmiss hfast
    rw [runScriptSteps_eq_map]
    have h1 : runWithTimeout p (WebAutomation.Click "#missing")
        = StepResult.completed [] := by
      unfold runWithTimeout
      rw [if_pos (hfast _)]
      simp [WebAutomation.run, hmiss]
    have h2 : runWithTimeout p (WebAutomation.Wait 100)
        = StepResult.completed [Effect.slept (durationFromMillis 100)] := by
      unfold runWithTimeout
      rw [if_pos (hfast _)]
      have : min (durationFromMillis 100) (durationFromSecs 60)
          = durationFromMillis 100 := by
        unfold durationFromMillis durationFromSecs
        omega
      simp [WebAutomation.run, this]
    have h3 : runWithTimeout p (WebAutomation.Evaluate "return 1")
        = StepResult.completed [Effect.evaluated "return 1"] := by
      unfold runWithTimeout
      rw [if_pos (hfast _)]
      rfl
    simp [h1, h2, h3]

/-- A concrete page lacking the `"#missing"` selector, with instant steps. -/
def pageSansMissing : PageEnv :=
  { selectors := [], clickOk := true, stepDuration := fun _ => 0 }

/-- The spec's three-step resilience script. -/
def missingScript : List WebAutomation :=
  [WebAutomation.Click "#missing", WebAutomation.Wait 100,
    WebAutomation.Evaluate "return 1"]

/-- Witness for C4: the registered three-step script runs to completion
on a page lacking `"#missing"`, the click being a no-op. -/
theorem eval_automation_scripts_resilient_witness :
    eval_automation_scripts pageSansMissing "https://example.com/"
        (some [("https://example.com/", missingScript)])
      = [StepResult.completed [],
          StepResult.completed [Effect.slept (durationFromMillis 100)],
          StepResult.completed [Effect.evaluated "return 1"]] := by
  have h := eval_automation_scripts_resilient pageSansMissing
    [("https://example.com/", missingScript)] "https://example.com/"
    missingScript (by decide)
  rw [h.1]
  decide

/-- C10 (the `Wait(ms)` step sleeps for `min(ms, 60s)`). A requested
duration of at most 60000 milliseconds is honored exactly; anything above
is silently clamped to exactly 60 seconds. -/
theorem wait_step_clamped (page : PageEnv) (ms : Nat) :
    (ms ≤ 60000 →
      (WebAutomation.Wait ms).run page = [Effect.slept (durationFromMillis ms)])
    ∧ (60000 < ms →
      (WebAutomation.Wait ms).run page = [Effect.slept (durationFromSecs 60)]) := by
  constructor
  · intro h
    have : min (durationFromMillis ms) (durationFromSecs 60)
        = durationFromMillis ms := by
      unfold durationFromMillis durationFromSecs
      omega
    simp [WebAutomation.run, this]
  · intro h
    have : min (durationFromMillis ms) (durationFromSecs 60)
        = durationFromSecs 60 := by
      unfold durationFromMillis durationFromSecs
      omega
    simp [WebAutomation.run, this]

/-- A concrete page for exercising the `Wait` step. -/
def idlePage : PageEnv :=
  { selectors := ["#app"], clickOk := true, stepDuration := fun _ => 0 }

/-- Witness for C10 on both sides of the 60000 ms boundary. -/
theorem wait_step_clamped_witness :
    (100 ≤ 60000
      ∧ (WebAutomation.Wait 100).run idlePage
          = [Effect.slept (durationFromMillis 100)])
    ∧ (60000 < 70000
      ∧ (WebAutomation.Wait 70000).run idlePage
          = [Effect.slept (durationFromSecs 60)]) :=
  ⟨⟨by decide, (wait_step_clamped idlePage 100).1 (by decide)⟩,
   ⟨by decide, (wait_step_clamped idlePage 70000).2 (by decide)⟩⟩

/- ### Browser session acquisition (`src/spider/src/features/chrome.rs`) -/

/-- A way of obtaining a browser that `launch_browser` actually tried:
`connect url` is `Browser::connect_with_config(&url, ...)`, `launch` is
`Browser::launch(browser_config)`. -/
inductive BrowserAttempt where
  | connect (url : String)
  | launch
  deriving Repr, DecidableEq

/-- The kind of browser session obtained. -/
inductive BrowserHandle where
  | remote
  | local
  deriving Repr, DecidableEq

/-- The outside world as `launch_browser` observes it: the `CHROME_URL`
environment variable, whether the remote connection succeeds, whether
`get_browser_config` produces a configuration, and whether the local
launch succeeds. -/
structure BrowserEnv where
  chromeUrl : Option String
  connectOk : Bool
  configOk : Bool
  launchOk : Bool

/-- `launch_browser`: when `CHROME_URL` is set, connect to the remote
endpoint (an error is logged and yields `None`); otherwise build a local
browser configuration and launch a process. The returned attempt list
records which acquisition paths were tried, in order. -/
def launch_browser (env : BrowserEnv) : Option BrowserHandle × List BrowserAttempt :=
  match env.chromeUrl with
  | some v =>
      if env.connectOk then (some BrowserHandle.remote, [BrowserAttempt.connect v])
      else (none, [BrowserAttempt.connect v])
  | none =>
      if env.configOk then
        if env.launchOk then (some BrowserHandle.local, [BrowserAttempt.launch])
        else (none, [BrowserAttempt.launch])
      else (none, [])

/-- C5 (remote endpoint first, no local fallback). With `CHROME_URL`
configured, the only acquisition attempt is the remote connection — a
local launch is never attempted — and a failed connection yields `None`. -/
theorem launch_browser_remote_first (env : BrowserEnv) (v : String)
    (hurl : env.chromeUrl = some v) :
    (launch_browser env).2 = [BrowserAttempt.connect v]
    ∧ BrowserAttempt.launch ∉ (launch_browser env).2
    ∧ (env.connectOk = false → (launch_browser env).1 = none) := by
  unfold launch_browser
  rw [hurl]
  cases hc : env.connectOk with
  | true => refine ⟨rfl, by simp, by simp⟩
  | false => refine ⟨rfl, by simp, fun _ => rfl⟩

/-- Witness for C5 with a configured endpoint whose connection fails. -/
theorem launch_browser_remote_first_witness :
    (BrowserEnv.mk (some "http://localhost:9222") false true true).chromeUrl
        = some "http://localhost:9222"
    ∧ ((launch_browser
          (BrowserEnv.mk (some "http://localhost:9222") false true true)).2
        = [BrowserAttempt.connect "http://localhost:9222"]
      ∧ BrowserAttempt.launch ∉ (launch_browser
          (BrowserEnv.mk (some "http://localhost:9222") false true true)).2
      ∧ ((BrowserEnv.mk (some "http://localhost:9222") false true true).connectOk
            = false →
          (launch_browser
            (BrowserEnv.mk (some "http://localhost:9222") false true true)).1
            = none)) :=
  ⟨rfl, launch_browser_remote_first
    (BrowserEnv.mk (some "http://localhost:9222") false true true)
    "http://localhost:9222" rfl⟩

/- ### The background event-poll task (C6) -/

/-- One polled protocol event: `Ok(_)` or `Err(_)` from `handler.next()`. -/
inductive HandlerEvent where
  | ok
  | err
  deriving Repr, DecidableEq

/-- The `while let Some(h) = handler.next().await { if h.is_err() { break } }`
loop, counting how many events the task polls before terminating; the
stream is modelled by the finite list of events it will yield before
ending. -/
def pollLoop : List HandlerEvent → Nat
  | [] => 0
  | HandlerEvent.ok :: rest => pollLoop rest + 1
  | HandlerEvent.err :: _ => 1

/-- C6 (poll-task termination condition). The spawned poll loop consumes
the entire stream when no event is an error (terminating only because the
stream ends), and otherwise polls exactly up to and including the first
error event: never past it, never stopping earlier. -/
theorem poll_loop_stops_at_first_error (events : List HandlerEvent) :
    ((∀ e ∈ events, e ≠ HandlerEvent.err) → pollLoop events = events.length)
    ∧ (∀ pre post, events = pre ++ HandlerEvent.err :: post →
        (∀ e ∈ pre, e ≠ HandlerEvent.err) →
        pollLoop events = pre.length + 1) := by
  constructor
  · intro hok
    induction events with
    | nil => rfl
    | cons e rest ih =>
        cases e with
        | ok =>
            rw [pollLoop, ih (fun x hx => hok x (List.mem_cons_of_mem _ hx))]
            rfl
        | err => exact absurd rfl (hok HandlerEvent.err (List.mem_cons_self _ _))
  · intro pre post hsplit hok
    subst hsplit
    induction pre with
    | nil => rfl
    | cons e pre ih =>
        cases e with
        | ok =>
            rw [List.cons_append, pollLoop,
              ih (fun x hx => hok x (List.mem_cons_of_mem _ hx))]
            rfl
        | err => exact absurd rfl (hok HandlerEvent.err (List.mem_cons_self _ _))

/-- Witness for C6: a stream `[ok, err, ok]` is polled exactly twice. -/
theorem poll_loop_stops_at_first_error_witness :
    pollLoop [HandlerEvent.ok, HandlerEvent.err, HandlerEvent.ok] = 2 :=
  (poll_loop_stops_at_first_error
      [HandlerEvent.ok, HandlerEvent.err, HandlerEvent.ok]).2
    [HandlerEvent.ok] [HandlerEvent.ok] rfl (by decide)

/- ### Per-page configuration (C7) -/

/-- The page as far as configuration is concerned: which emulation
overrides are currently applied. -/
structure PageState where
  timezone : Option String
  locale : Option String
  deriving Repr, DecidableEq

/-- Whether the two CDP emulation commands succeed against this page. -/
structure EmulationOracle where
  tzOk : Bool
  localeOk : Bool
  deriving Repr, DecidableEq

/-- A configuration step that `configure_browser` attempted. -/
inductive ConfigAttempt where
  | emulateTimezone (tz : String)
  | emulateLocale (locale : String)
  deriving Repr, DecidableEq

/-- `Page::emulate_timezone` (`SetTimezoneOverrideParams`): on success the
page carries the override, on failure the command errors. -/
def emulate_timezone (o : EmulationOracle) (page : PageState) (tz : String) :
    Except Unit PageState :=
  if o.tzOk then Except.ok { page with timezone := some tz } else Except.error ()

/-- `Page::emulate_locale` (`SetLocaleOverrideParams`). -/
def emulate_locale (o : EmulationOracle) (page : PageState) (l : String) :
    Except Unit PageState :=
  if o.localeOk then Except.ok { page with locale := some l } else Except.error ()

/-- The configuration options `configure_browser` reads. -/
structure BrowserConfiguration where
  timezone_id : Option String
  locale : Option String
  deriving Repr, DecidableEq

/-- `configure_browser`: apply the timezone override if configured (on
`Err` keep the unmodified page), then likewise the locale override, and
return the page unconditionally. The attempt list records each emulation
command issued, in order. -/
def configure_browser (o : EmulationOracle) (new_page : PageState)
    (configuration : BrowserConfiguration) : PageState × List ConfigAttempt :=
  let step1 : PageState × List ConfigAttempt :=
    match configuration.timezone_id with
    | some timezone_id =>
        (match emulate_timezone o new_page timezone_id with
         | Except.ok np => np
         | Except.error _ => new_page,
         [ConfigAttempt.emulateTimezone timezone_id])
    | none => (new_page, [])
  match configuration.locale with
  | some locale =>
      (match emulate_locale o step1.1 locale with
       | Except.ok np => np
       | Except.error _ => step1.1,
       step1.2 ++ [ConfigAttempt.emulateLocale locale])
  | none => (step1.1, step1.2)

/-- C7 (non-fatal page configuration). `configure_browser` always returns
a page (its type is `Page`, not a `Result`): a timezone-override failure
leaves the page's timezone untouched and still lets the locale override
be attempted and applied, a locale-override failure leaves the locale
untouched, and neither failure escapes the function. -/
theorem configure_browser_nonfatal (o : EmulationOracle) (page : PageState)
    (cfg : BrowserConfiguration) (l : String) :
    (cfg.locale = some l →
      ConfigAttempt.emulateLocale l ∈ (configure_browser o page cfg).2)
    ∧ (o.tzOk = false →
      (configure_browser o page cfg).1.timezone = page.timezone)
    ∧ (o.localeOk = false →
      (configure_browser o page cfg).1.locale = page.locale)
    ∧ (o.tzOk = false → o.localeOk = true → cfg.locale = some l →
      (configure_browser o page cfg).1.locale = some l) := by
  unfold configure_browser
  cases htz : cfg.timezone_id with
  | some tz =>
      cases hl : cfg.locale with
      | some l' =>
          cases ho : o.tzOk with
          | true =>
              cases hlo : o.localeOk with
              | true =>
                  simp [emulate_timezone, emulate_locale, ho, hlo]
                  intro h
                  exact h.symm
              | false =>
                  simp [emulate_timezone, emulate_locale, ho, hlo]
                  exact fun h => h.symm
          | false =>
              cases hlo : o.localeOk with
              | true =>
                  simp [emulate_timezone, emulate_locale, ho, hlo]
                  intro h
                  exact h.symm
              | false =>
                  simp [emulate_timezone, emulate_locale, ho, hlo]
                  exact fun h => h.symm
      | none =>
          cases ho : o.tzOk with
          | true => simp [emulate_timezone, ho]
          | false => simp [emulate_timezone, ho]
  | none =>
      cases hl : cfg.locale with
      | some l' =>
          cases hlo : o.localeOk with
          | true =>
              simp [emulate_locale, hlo]
              intro h
              exact h.symm
          | false =>
              simp [emulate_locale, hlo]
              exact fun h => h.symm
      | none => simp

/-- Witness for C7: timezone emulation fails, locale emulation succeeds. -/
theorem configure_browser_nonfatal_witness :
    ((BrowserConfiguration.mk (some "UTC") (some "en-US")).locale
        = some "en-US"
      → ConfigAttempt.emulateLocale "en-US"
          ∈ (configure_browser (EmulationOracle.mk false true)
              (PageState.mk none none)
              (BrowserConfiguration.mk (some "UTC") (some "en-US"))).2)
    ∧ ((EmulationOracle.mk false true).tzOk = false
      → (configure_browser (EmulationOracle.mk false true)
            (PageState.mk none none)
            (BrowserConfiguration.mk (some "UTC") (some "en-US"))).1.timezone
          = (PageState.mk none none).timezone)
    ∧ ((EmulationOracle.mk false true).localeOk = false
      → (configure_browser (EmulationOracle.mk false true)
            (PageState.mk none none)
            (BrowserConfiguration.mk (some "UTC") (some "en-US"))).1.locale
          = (PageState.mk none none).locale)
    ∧ ((EmulationOracle.mk false true).tzOk = false
      → (EmulationOracle.mk false true).localeOk = true
      → (BrowserConfiguration.mk (some "UTC") (some "en-US")).locale
          = some "en-US"
      → (configure_browser (EmulationOracle.mk false true)
            (PageState.mk none none)
            (BrowserConfiguration.mk (some "UTC") (some "en-US"))).1.locale
          = some "en-US") :=
  configure_browser_nonfatal (EmulationOracle.mk false true)
    (PageState.mk none none)
    (BrowserConfiguration.mk (some "UTC") (some "en-US")) "en-US"

/- ### Screenshot parameter conversion (C8) -/

/-- `CaptureScreenshotFormat` of `chrome_common.rs`. -/
inductive CaptureScreenshotFormat where
  | Jpeg
  | Png
  | Webp
  deriving Repr, DecidableEq

/-- `ClipViewport`: a screenshot clip region (`f64` fields). -/
structure ClipViewport where
  x : Float
  y : Float
  width : Float
  height : Float
  scale : Float

/-- `CaptureScreenshotParams` of `chrome_common.rs`. -/
structure CaptureScreenshotParams where
  format : Option CaptureScreenshotFormat
  quality : Option Int
  clip : Option ClipViewport
  from_surface : Option Bool
  capture_beyond_viewport : Option Bool

/-- `ScreenshotParams` of `chrome_common.rs`. -/
structure ScreenshotParams where
  cdp_params : CaptureScreenshotParams
  full_page : Option Bool
  omit_background : Option Bool

/-- The two screenshot environment variables as read inside the `From`
conversion (`SCREENSHOT_FULL_PAGE`, `SCREENSHOT_OMIT_BACKGROUND`);
`none` is an unset variable (`std::env::var` returning `Err`). -/
structure ScreenshotEnv where
  screenshot_full_page : Option String
  screenshot_omit_background : Option String

/-- The `chromiumoxide::page::ScreenshotParams` assembled by the builder:
`format`, `full_page` and `omit_background` are always set; the remaining
builder calls happen only when the corresponding input field is present. -/
structure CdpScreenshotParams where
  format : CaptureScreenshotFormat
  full_page : Bool
  omit_background : Bool
  quality : Option Int
  clip : Option ClipViewport
  capture_beyond_viewport : Option Bool
  from_surface : Option Bool

/-- The `impl From<ScreenshotParams> for chromiumoxide::page::ScreenshotParams`
conversion: an explicitly set `full_page`/`omit_background` is used as-is;
otherwise the environment variable decides, the value `"true"` giving
`true`, any other set value `false`, and an unset variable `true`. -/
def screenshotParamsIntoCdp (params : ScreenshotParams) (env : ScreenshotEnv) :
    CdpScreenshotParams :=
  let full_page :=
    if params.full_page.isSome then
      match params.full_page with
      | some v => v
      | none => false
    else
      match env.screenshot_full_page with
      | some t => t == "true"
      | none => true
  let omit_background :=
    if params.omit_background.isSome then
      match params.omit_background with
      | some v => v
      | none => false
    else
      match env.screenshot_omit_background with
      | some t => t == "true"
      | none => true
  let format :=
    if params.cdp_params.format.isSome then
      match params.cdp_params.format with
      | some v => v
      | none => CaptureScreenshotFormat.Png
    else CaptureScreenshotFormat.Png
  { format := format
    full_page := full_page
    omit_background := omit_background
    quality :=
      if params.cdp_params.quality.isSome then
        some (params.cdp_params.quality.getD 75)
      else none
    clip :=
      if params.cdp_params.clip.isSome then
        match params.cdp_params.clip with
        | some vp => some vp
        | none => none
      else none
    capture_beyond_viewport :=
      if params.cdp_params.capture_beyond_viewport.isSome then
        match params.cdp_params.capture_beyond_viewport with
        | some c => some c
        | none => none
      else none
    from_surface :=
      if params.cdp_params.from_surface.isSome then
        match params.cdp_params.from_surface with
        | some f => some f
        | none => none
      else none }

/-- C8 (screenshot flag resolution). An explicit `full_page` or
`omit_background` value survives the conversion unchanged, whatever the
environment says; when unset, the environment variable decides: `"true"`
gives `true`, any other set string gives `false`, unset gives `true`. -/
theorem screenshot_params_env_resolution (params : ScreenshotParams)
    (env : ScreenshotEnv) :
    (∀ v, params.full_page = some v →
      (screenshotParamsIntoCdp params env).full_page = v)
    ∧ (params.full_page = none →
      ((env.screenshot_full_page = some "true" →
          (screenshotParamsIntoCdp params env).full_page = true)
        ∧ (∀ s, env.screenshot_full_page = some s → s ≠ "true" →
            (screenshotParamsIntoCdp params env).full_page = false)
        ∧ (env.screenshot_full_page = none →
            (screenshotParamsIntoCdp params env).full_page = true)))
    ∧ (∀ v, params.omit_background = some v →
      (screenshotParamsIntoCdp params env).omit_background = v)
    ∧ (params.omit_background = none →
      ((env.screenshot_omit_background = some "true" →
          (screenshotParamsIntoCdp params env).omit_background = true)
        ∧ (∀ s, env.screenshot_omit_background = some s → s ≠ "true" →
            (screenshotParamsIntoCdp params env).omit_background = false)
        ∧ (env.screenshot_omit_background = none →
            (screenshotParamsIntoCdp params env).omit_background = true))) := by
  refine ⟨?_, ?_, ?_, ?_⟩
  · intro v hv
    simp [screenshotParamsIntoCdp, hv]
  · intro hnone
    refine ⟨?_, ?_, ?_⟩
    · intro henv
      simp [screenshotParamsIntoCdp, hnone, henv]
    · intro s henv hne
      simp [screenshotParamsIntoCdp, hnone, henv, hne]
    · intro henv
      simp [screenshotParamsIntoCdp, hnone, henv]
  · intro v hv
    simp [screenshotParamsIntoCdp, hv]
  · intro hnone
    refine ⟨?_, ?_, ?_⟩
    · intro henv
      simp [screenshotParamsIntoCdp, hnone, henv]
    · intro s henv hne
      simp [screenshotParamsIntoCdp, hnone, henv, hne]
    · intro henv
      simp [screenshotParamsIntoCdp, hnone, henv]

/-- A concrete screenshot parameter set: `full_page` explicitly `false`,
`omit_background` left unset. -/
def sampleScreenshotParams : ScreenshotParams :=
  { cdp_params :=
      { format := none, quality := none, clip := none, from_surface := none,
        capture_beyond_viewport := none }
    full_page := some false
    omit_background := none }

/-- A concrete environment: both variables set, the second not `"true"`. -/
def sampleScreenshotEnv : ScreenshotEnv :=
  { screenshot_full_page := some "true"
    screenshot_omit_background := some "yes" }

/-- Witness for C8: the explicit `full_page := false` overrides the
environment's `"true"`, and the unset `omit_background` resolves from the
environment's `"yes"` to `false`. -/
theorem screenshot_params_env_resolution_witness :
    sampleScreenshotParams.full_page = some false
    ∧ (screenshotParamsIntoCdp sampleScreenshotParams sampleScreenshotEnv).full_page
        = false
    ∧ sampleScreenshotParams.omit_background = none
    ∧ sampleScreenshotEnv.screenshot_omit_background = some "yes"
    ∧ "yes" ≠ "true"
    ∧ (screenshotParamsIntoCdp sampleScreenshotParams
        sampleScreenshotEnv).omit_background = false :=
  ⟨rfl,
   (screenshot_params_env_resolution sampleScreenshotParams
       sampleScreenshotEnv).1 false rfl,
   rfl, rfl, by decide,
   ((screenshot_params_env_resolution sampleScreenshotParams
       sampleScreenshotEnv).2.2.2 rfl).2.1 "yes" rfl (by decide)⟩
